import Mathlib

/-!
Verification of the signal-to-palette decomposition pipeline of
`minecraft-player` against its specification.

The Rust sources are shallowly embedded: `f32` arithmetic is modelled by
exact rationals `ℚ` (reals `ℝ` where a logarithm occurs), `ndarray`
matrices by `Matrix (Fin a) (Fin b) ℚ`, fallible or panicking operations
by `Option`.
-/

namespace MinecraftPlayer

/-! ## Iterator folds for minimum / maximum

`algebra.rs` computes matrix extrema with
`iter().fold(f32::INFINITY, f32::min)` and
`iter().fold(f32::NEG_INFINITY, f32::max)`.  Over `ℚ` there are no
infinities, so the fold is modelled on the element list: it yields `none`
exactly when the list is empty (the case where the Rust fold returns the
infinite seed). -/

def fmin : List ℚ → Option ℚ
  | [] => none
  | x :: xs => some (xs.foldl min x)

def fmax : List ℚ → Option ℚ
  | [] => none
  | x :: xs => some (xs.foldl max x)

theorem le_foldl_max (xs : List ℚ) (x : ℚ) : x ≤ xs.foldl max x := by
  induction xs generalizing x with
  | nil => exact le_refl x
  | cons y ys ih => exact le_trans (le_max_left x y) (ih (max x y))

theorem mem_le_foldl_max (xs : List ℚ) (x : ℚ) :
    ∀ y ∈ xs, y ≤ xs.foldl max x := by
  induction xs generalizing x with
  | nil => intro y hy; cases hy
  | cons z zs ih =>
      intro y hy
      rcases List.mem_cons.mp hy with h | h
      · subst h
        exact le_trans (le_max_right x y) (le_foldl_max zs (max x y))
      · exact ih (max x z) y h

theorem foldl_max_mem (xs : List ℚ) (x : ℚ) : xs.foldl max x ∈ x :: xs := by
  induction xs generalizing x with
  | nil => exact List.mem_singleton.mpr rfl
  | cons y ys ih =>
      have h := ih (max x y)
      rcases List.mem_cons.mp h with h | h
      · rcases max_choice x y with hc | hc
        · exact List.mem_cons.mpr (Or.inl (h.trans hc))
        · exact List.mem_cons.mpr (Or.inr (List.mem_cons.mpr (Or.inl (h.trans hc))))
      · exact List.mem_cons.mpr (Or.inr (List.mem_cons.mpr (Or.inr h)))

theorem foldl_min_le (xs : List ℚ) (x : ℚ) : xs.foldl min x ≤ x := by
  induction xs generalizing x with
  | nil => exact le_refl x
  | cons y ys ih => exact le_trans (ih (min x y)) (min_le_left x y)

theorem foldl_min_le_mem (xs : List ℚ) (x : ℚ) :
    ∀ y ∈ xs, xs.foldl min x ≤ y := by
  induction xs generalizing x with
  | nil => intro y hy; cases hy
  | cons z zs ih =>
      intro y hy
      rcases List.mem_cons.mp hy with h | h
      · subst h
        exact le_trans (foldl_min_le zs (min x y)) (min_le_right x y)
      · exact ih (min x z) y h

theorem foldl_min_mem (xs : List ℚ) (x : ℚ) : xs.foldl min x ∈ x :: xs := by
  induction xs generalizing x with
  | nil => exact List.mem_singleton.mpr rfl
  | cons y ys ih =>
      have h := ih (min x y)
      rcases List.mem_cons.mp h with h | h
      · rcases min_choice x y with hc | hc
        · exact List.mem_cons.mpr (Or.inl (h.trans hc))
        · exact List.mem_cons.mpr (Or.inr (List.mem_cons.mpr (Or.inl (h.trans hc))))
      · exact List.mem_cons.mpr (Or.inr (List.mem_cons.mpr (Or.inr h)))

theorem fmax_spec (l : List ℚ) (M : ℚ) (h : fmax l = some M) :
    M ∈ l ∧ ∀ y ∈ l, y ≤ M := by
  cases l with
  | nil => cases h
  | cons x xs =>
      have hM : M = xs.foldl max x := by
        simpa [fmax] using h.symm
      subst hM
      refine ⟨foldl_max_mem xs x, ?_⟩
      intro y hy
      rcases List.mem_cons.mp hy with h | h
      · subst h; exact le_foldl_max xs y
      · exact mem_le_foldl_max xs x y h

theorem fmin_spec (l : List ℚ) (m : ℚ) (h : fmin l = some m) :
    m ∈ l ∧ ∀ y ∈ l, m ≤ y := by
  cases l with
  | nil => cases h
  | cons x xs =>
      have hm : m = xs.foldl min x := by
        simpa [fmin] using h.symm
      subst hm
      refine ⟨foldl_min_mem xs x, ?_⟩
      intro y hy
      rcases List.mem_cons.mp hy with h | h
      · subst h; exact foldl_min_le xs y
      · exact foldl_min_le_mem xs x y h

theorem fmax_isSome {l : List ℚ} (h : l ≠ []) : ∃ M, fmax l = some M := by
  cases l with
  | nil => exact absurd rfl h
  | cons x xs => exact ⟨xs.foldl max x, rfl⟩

theorem fmin_isSome {l : List ℚ} (h : l ≠ []) : ∃ m, fmin l = some m := by
  cases l with
  | nil => exact absurd rfl h
  | cons x xs => exact ⟨xs.foldl min x, rfl⟩

/-- The row-major element list of a matrix, mirroring `ndarray`'s `iter()`
order over a standard-layout `Array2`. -/
def matList {a b : ℕ} (A : Matrix (Fin a) (Fin b) ℚ) : List ℚ :=
  ((List.finRange a).map (fun i => (List.finRange b).map (fun j => A i j))).flatten

theorem mem_matList {a b : ℕ} (A : Matrix (Fin a) (Fin b) ℚ) (i : Fin a) (j : Fin b) :
    A i j ∈ matList A := by
  unfold matList
  rw [List.mem_flatten]
  refine ⟨(List.finRange b).map (fun j => A i j), ?_, ?_⟩
  · exact List.mem_map_of_mem _ (List.mem_finRange i)
  · exact List.mem_map_of_mem _ (List.mem_finRange j)

theorem of_mem_matList {a b : ℕ} (A : Matrix (Fin a) (Fin b) ℚ) (x : ℚ)
    (hx : x ∈ matList A) : ∃ i j, A i j = x := by
  unfold matList at hx
  rw [List.mem_flatten] at hx
  obtain ⟨row, hrow, hxrow⟩ := hx
  rw [List.mem_map] at hrow
  obtain ⟨i, _, hi⟩ := hrow
  subst hi
  rw [List.mem_map] at hxrow
  obtain ⟨j, _, hj⟩ := hxrow
  exact ⟨i, j, hj⟩

theorem matList_ne_nil {a b : ℕ} (A : Matrix (Fin a) (Fin b) ℚ)
    (i : Fin a) (j : Fin b) : matList A ≠ [] := by
  intro h
  have := mem_matList A i j
  rw [h] at this
  cases this

/-! ## `algebra.rs` -/

/-- `algebra.rs` `interpolated_range`: `r` equally spaced points from `a`
to `b`.  The source asserts `r >= 2` and panics below that; the embedding
is total and mirrors the arithmetic of the `r ≥ 2` case (theorems about it
carry the `2 ≤ r` hypothesis). -/
def interpolated_range (a b : ℚ) (r : ℕ) : List ℚ :=
  let step := (b - a) / ((r : ℚ) - 1)
  (List.range r).map (fun i : ℕ => a + (i : ℚ) * step)

/-- `algebra.rs` `normalize_to_minus_plus`: fold the elementwise minimum
and maximum; when `max − min > 0` rescale each element affinely, otherwise
set every element to `0`.  The `none` branch is the empty matrix, on which
the source's two elementwise loops traverse nothing. -/
def normalize_to_minus_plus {a b : ℕ} (A : Matrix (Fin a) (Fin b) ℚ) :
    Matrix (Fin a) (Fin b) ℚ :=
  match fmin (matList A), fmax (matList A) with
  | some min_val, some max_val =>
      if 0 < max_val - min_val then
        Matrix.of fun i j => 2 * (A i j - min_val) / (max_val - min_val) - 1
      else
        Matrix.of fun _ _ => 0
  | _, _ => A

/-- `algebra.rs` `normalize_to_global`: divide every element by the folded
maximum when it is positive, otherwise leave the matrix unchanged. -/
def normalize_to_global {a b : ℕ} (A : Matrix (Fin a) (Fin b) ℚ) :
    Matrix (Fin a) (Fin b) ℚ :=
  match fmax (matList A) with
  | some max_val =>
      if 0 < max_val then Matrix.of fun i j => A i j / max_val else A
  | none => A

/-- Modelled from the spec: `apply_epsilon` is invoked from `main.rs` but
its definition is not among the provided sources.  Per the spec it "sets
entries strictly below ε to zero" and "leaves `A ≥ ε` untouched". -/
def apply_epsilon {a b : ℕ} (A : Matrix (Fin a) (Fin b) ℚ) (eps : ℚ) :
    Matrix (Fin a) (Fin b) ℚ :=
  Matrix.of fun i j => if A i j < eps then 0 else A i j

/-- `algebra.rs` `matrix_from_vecs`: flatten the rows, take the shape
`(rows, cols)` with `cols` the first row's length (`0` when there are no
rows), and materialize a row-major array; `ArrayView2::from_shape` errors
exactly when the flat length differs from `rows * cols`. -/
def matrix_from_vecs (matrix_vec : List (List ℚ)) : Option ((ℕ × ℕ) × List ℚ) :=
  let flat_vec := matrix_vec.flatten
  let rows := matrix_vec.length
  let cols := if 0 < rows then (matrix_vec.headD []).length else 0
  if flat_vec.length = rows * cols then some ((rows, cols), flat_vec) else none

/-- One iteration of the loop body of `algebra.rs` `cpu_pgd_nnls`:
`wh = basis.dot(h)`, `grad = wt.dot(wh − data)`,
`h = h − grad * step`, `h.mapv_inplace(|x| x.max(0.0))`. -/
def cpuStep {m n r : ℕ} (data : Matrix (Fin m) (Fin n) ℚ)
    (basis : Matrix (Fin m) (Fin r) ℚ) (step : ℚ)
    (h : Matrix (Fin r) (Fin n) ℚ) : Matrix (Fin r) (Fin n) ℚ :=
  let wt := basis.transpose
  let wh := basis * h
  let grad := wt * (wh - data)
  ((h - grad.map (fun x => x * step)).map (fun x => max x 0))

/-- The `for i in 0..iters` loop of `cpu_pgd_nnls`, rebinding `h`. -/
def cpuLoop {m n r : ℕ} (data : Matrix (Fin m) (Fin n) ℚ)
    (basis : Matrix (Fin m) (Fin r) ℚ) (step : ℚ) :
    ℕ → Matrix (Fin r) (Fin n) ℚ → Matrix (Fin r) (Fin n) ℚ
  | 0, h => h
  | Nat.succ k, h => cpuLoop data basis step k (cpuStep data basis step h)

/-- `algebra.rs` `cpu_pgd_nnls`: projected-gradient NNLS on the host,
starting from `h = 0` (`Array2::zeros((r, n))`).  The dimension assertion
`m1 == m2` of the source is enforced by the types. -/
def cpu_pgd_nnls {m n r : ℕ} (data : Matrix (Fin m) (Fin n) ℚ)
    (basis : Matrix (Fin m) (Fin r) ℚ) (iters : ℕ) (step : ℚ) :
    Matrix (Fin r) (Fin n) ℚ :=
  cpuLoop data basis step iters 0

/-- Modelled from the spec: the OpenCL kernel source `pgd.ocl` included by
`algebra.rs` is not among the provided sources.  Kernel `gemm_whv` is
modelled from the spec's three-kernel factoring, steps 1–2:
`A = W·H` then `A ← A − V`, per output element `(i, j)`. -/
def gemm_whv {m n r : ℕ} (w : Matrix (Fin m) (Fin r) ℚ)
    (h : Matrix (Fin r) (Fin n) ℚ) (v : Matrix (Fin m) (Fin n) ℚ) :
    Matrix (Fin m) (Fin n) ℚ :=
  Matrix.of fun i j => (∑ k, w i k * h k j) - v i j

/-- Modelled from the spec: kernel `gemm_grad` (missing `pgd.ocl`),
step 3 of the factoring: `G = Wᵀ·A`, reading the host-precomputed
transpose buffer. -/
def gemm_grad {m n r : ℕ} (w_t : Matrix (Fin r) (Fin m) ℚ)
    (whv : Matrix (Fin m) (Fin n) ℚ) : Matrix (Fin r) (Fin n) ℚ :=
  Matrix.of fun j l => ∑ i, w_t j i * whv i l

/-- Modelled from the spec: kernel `update_h` (missing `pgd.ocl`),
step 4 of the factoring: `H ← max(0, H − t·G)` elementwise. -/
def update_h {n r : ℕ} (h g : Matrix (Fin r) (Fin n) ℚ) (step : ℚ) :
    Matrix (Fin r) (Fin n) ℚ :=
  Matrix.of fun j l => max 0 (h j l - step * g j l)

/-- One iteration of the device loop in `algebra.rs` `pgd_nnls`: enqueue
`k_whv`, then `k_grad`, then `k_update`, with a `finish` barrier between
kernels (so the iterations compose sequentially). -/
def gpuStep {m n r : ℕ} (data : Matrix (Fin m) (Fin n) ℚ)
    (basis : Matrix (Fin m) (Fin r) ℚ) (w_t : Matrix (Fin r) (Fin m) ℚ)
    (step : ℚ) (h : Matrix (Fin r) (Fin n) ℚ) : Matrix (Fin r) (Fin n) ℚ :=
  update_h h (gemm_grad w_t (gemm_whv basis h data)) step

/-- The `for i in 0..iters` device loop of `pgd_nnls`. -/
def gpuLoop {m n r : ℕ} (data : Matrix (Fin m) (Fin n) ℚ)
    (basis : Matrix (Fin m) (Fin r) ℚ) (w_t : Matrix (Fin r) (Fin m) ℚ)
    (step : ℚ) : ℕ → Matrix (Fin r) (Fin n) ℚ → Matrix (Fin r) (Fin n) ℚ
  | 0, h => h
  | Nat.succ k, h => gpuLoop data basis w_t step k (gpuStep data basis w_t step h)

/-- `algebra.rs` `pgd_nnls`: the accelerated backend.  The host precomputes
the transpose buffer `w_t[j*m1 + i] = basis[(i, j)]`, uploads `h = 0`, runs
the three kernels per iteration, and reads `h` back. -/
def pgd_nnls {m n r : ℕ} (data : Matrix (Fin m) (Fin n) ℚ)
    (basis : Matrix (Fin m) (Fin r) ℚ) (iters : ℕ) (step : ℚ) :
    Matrix (Fin r) (Fin n) ℚ :=
  let w_t : Matrix (Fin r) (Fin m) ℚ := Matrix.of fun j i => basis i j
  gpuLoop data basis w_t step iters 0

/-! ## Spec-side definitions for the solver claims -/

/-- The spec's update rule, from its words:
`H ← max(0, H − t · Wᵀ(W H − V))`. -/
def pgdSpecUpdate {m n r : ℕ} (V : Matrix (Fin m) (Fin n) ℚ)
    (W : Matrix (Fin m) (Fin r) ℚ) (t : ℚ)
    (H : Matrix (Fin r) (Fin n) ℚ) : Matrix (Fin r) (Fin n) ℚ :=
  (H - t • (W.transpose * (W * H - V))).map (fun x => max 0 x)

theorem cpuStep_eq_spec {m n r : ℕ} (V : Matrix (Fin m) (Fin n) ℚ)
    (W : Matrix (Fin m) (Fin r) ℚ) (t : ℚ) (h : Matrix (Fin r) (Fin n) ℚ) :
    cpuStep V W t h = pgdSpecUpdate V W t h := by
  ext i j
  simp only [cpuStep, pgdSpecUpdate, Matrix.map_apply, Matrix.sub_apply,
    Matrix.smul_apply, smul_eq_mul]
  rw [max_comm, mul_comm]

theorem cpuLoop_eq_iterate {m n r : ℕ} (V : Matrix (Fin m) (Fin n) ℚ)
    (W : Matrix (Fin m) (Fin r) ℚ) (t : ℚ) (k : ℕ)
    (h : Matrix (Fin r) (Fin n) ℚ) :
    cpuLoop V W t k h = (pgdSpecUpdate V W t)^[k] h := by
  induction k generalizing h with
  | zero => rfl
  | succ k ih =>
      show cpuLoop V W t k (cpuStep V W t h) = _
      rw [ih, cpuStep_eq_spec, Function.iterate_succ_apply]

/-- C1: `cpu_pgd_nnls(V, W, I, t)` returns exactly the matrix obtained by
initializing `H` to the zero matrix and applying `I` times the update
`H ← max(0, H − t · Wᵀ(W H − V))`, the maximum taken elementwise
against zero. -/
theorem C1_cpu_pgd_nnls_is_spec_iteration {m n r : ℕ}
    (V : Matrix (Fin m) (Fin n) ℚ) (W : Matrix (Fin m) (Fin r) ℚ)
    (iters : ℕ) (t : ℚ) :
    cpu_pgd_nnls V W iters t = (pgdSpecUpdate V W t)^[iters] 0 :=
  cpuLoop_eq_iterate V W t iters 0

/-- C2: every entry of `cpu_pgd_nnls(V, W, I, t)` is nonnegative, for every
iteration count including `I = 0`. -/
theorem C2_cpu_pgd_nnls_nonneg {m n r : ℕ}
    (V : Matrix (Fin m) (Fin n) ℚ) (W : Matrix (Fin m) (Fin r) ℚ)
    (iters : ℕ) (t : ℚ) (i : Fin r) (j : Fin n) :
    0 ≤ cpu_pgd_nnls V W iters t i j := by
  have key : ∀ k (h : Matrix (Fin r) (Fin n) ℚ),
      (∀ i j, 0 ≤ h i j) → ∀ i j, 0 ≤ cpuLoop V W t k h i j := by
    intro k
    induction k with
    | zero => intro h hh i j; exact hh i j
    | succ k ih =>
        intro h _ i j
        refine ih (cpuStep V W t h) ?_ i j
        intro i j
        simp only [cpuStep, Matrix.map_apply]
        exact le_max_right _ 0
  exact key iters 0 (fun i j => le_refl 0) i j

theorem gpuStep_eq_cpuStep {m n r : ℕ} (V : Matrix (Fin m) (Fin n) ℚ)
    (W : Matrix (Fin m) (Fin r) ℚ) (t : ℚ) (h : Matrix (Fin r) (Fin n) ℚ) :
    gpuStep V W (Matrix.of fun j i => W i j) t h = cpuStep V W t h := by
  ext i j
  simp only [gpuStep, cpuStep, update_h, gemm_grad, gemm_whv, Matrix.of_apply,
    Matrix.map_apply, Matrix.sub_apply, Matrix.mul_apply,
    Matrix.transpose_apply]
  rw [max_comm, mul_comm]

theorem pgd_nnls_eq_cpu {m n r : ℕ} (V : Matrix (Fin m) (Fin n) ℚ)
    (W : Matrix (Fin m) (Fin r) ℚ) (iters : ℕ) (t : ℚ) :
    pgd_nnls V W iters t = cpu_pgd_nnls V W iters t := by
  have key : ∀ k (h : Matrix (Fin r) (Fin n) ℚ),
      gpuLoop V W (Matrix.of fun j i => W i j) t k h = cpuLoop V W t k h := by
    intro k
    induction k with
    | zero => intro h; rfl
    | succ k ih =>
        intro h
        show gpuLoop V W _ t k (gpuStep V W _ t h) = cpuLoop V W t k (cpuStep V W t h)
        rw [gpuStep_eq_cpuStep, ih]
  exact key iters 0

/-- C3: for every `(V, W, I, t)` the reference backend `cpu_pgd_nnls` and
the accelerated backend `pgd_nnls` produce activation matrices elementwise
equal within `1e-7` after the caller's global normalization (in the exact
arithmetic of the embedding the two results coincide). -/
theorem C3_backends_agree {m n r : ℕ} (V : Matrix (Fin m) (Fin n) ℚ)
    (W : Matrix (Fin m) (Fin r) ℚ) (iters : ℕ) (t : ℚ)
    (i : Fin r) (j : Fin n) :
    |normalize_to_global (cpu_pgd_nnls V W iters t) i j -
      normalize_to_global (pgd_nnls V W iters t) i j| ≤ 1 / 10000000 := by
  rw [pgd_nnls_eq_cpu, sub_self, abs_zero]
  norm_num

/-! ## `audio.rs` -/

/-- `audio.rs` `lerp`. -/
def lerp (start finish t : ℚ) : ℚ :=
  start * (1 - t) + finish * t

/-- `audio.rs` `Sound`: a mono PCM buffer plus its sample rate.  The sample
type is a parameter so that the same structure models `f32` samples as `ℚ`
in the time-domain utilities and as `ℝ` in the spectral frontend. -/
structure Sound (α : Type) where
  samples : List α
  sample_rate : ℕ

/-- The `samples_per_tick` computation of `Sound::first_tick`:
`ceil((sample_rate * 50.0) / 1000.0) as usize`. -/
def samplesPerTick (rate : ℕ) : ℕ :=
  (Int.ceil (((rate : ℚ) * 50) / 1000)).toNat

/-- `audio.rs` `Sound::first_tick`: truncate to `samples_per_tick`
samples, zero-padding (`resize(samples_per_tick, 0.0)`) when shorter. -/
def first_tick (s : Sound ℚ) : Sound ℚ :=
  let samples_per_tick := samplesPerTick s.sample_rate
  if s.samples.length < samples_per_tick then
    ⟨s.samples ++ List.replicate (samples_per_tick - s.samples.length) 0,
      s.sample_rate⟩
  else
    ⟨s.samples.take samples_per_tick, s.sample_rate⟩

/-- `audio.rs` `Sound::resample`: linear-interpolation resampling.
`output_len = (input_len * new_rate) / sample_rate` in integer division;
the source panics when either length is zero, modelled as `none`.  When
the lengths coincide the source returns `self` unchanged. -/
def resample (s : Sound ℚ) (new_rate : ℕ) : Option (Sound ℚ) :=
  let input_len := s.samples.length
  let output_len := input_len * new_rate / s.sample_rate
  if input_len = 0 ∨ output_len = 0 then
    none
  else if input_len = output_len then
    some s
  else
    let step := ((input_len : ℚ) - 1) / ((output_len : ℚ) - 1)
    let resampled := (List.range output_len).map (fun i : ℕ =>
      let pos := (i : ℚ) * step
      let index := (Int.floor pos).toNat
      let frac := pos - (index : ℚ)
      let s1 := s.samples.getD index 0
      let s2 := s.samples.getD (index + 1) s1
      lerp s1 s2 frac)
    some ⟨resampled, new_rate⟩

/-- `audio.rs` `Sound::adjust_pitch`: time-dilation pitch scaling with
linear gap filling.  `new_length = (len as f32 / pitch) as usize` is the
saturating float-to-integer cast, `⌊len / pitch⌋` clamped to `ℕ`; in-range
indexing `samples[i]` is rendered as `getD _ 0` (the indices are provably
in bounds for the lengths produced here). -/
def adjust_pitch (s : Sound ℚ) (pitch : ℚ) : Sound ℚ :=
  if pitch = 1 then s
  else
    let new_length := (Int.floor ((s.samples.length : ℚ) / pitch)).toNat
    let scaled := (List.range new_length).map (fun i : ℕ =>
      let original_index := (i : ℚ) * pitch
      let lower_index := (Int.floor original_index).toNat
      let upper_index := (Int.ceil original_index).toNat
      let upper_index :=
        if s.samples.length ≤ upper_index then s.samples.length - 1
        else upper_index
      if lower_index ≠ upper_index then
        let t := original_index - (lower_index : ℚ)
        lerp (s.samples.getD lower_index 0) (s.samples.getD upper_index 0) t
      else
        s.samples.getD lower_index 0)
    ⟨scaled, s.sample_rate⟩

/-- `audio.rs` `permute_with_pitch`: cross product of the palette samples
with `interpolated_range(0.5, 2.0, resolution)`, then
`sound.adjust_pitch(pitch).first_tick()` on every pair. -/
def permute_with_pitch (samples : List (String × Sound ℚ)) (resolution : ℕ) :
    List ((String × ℚ) × Sound ℚ) :=
  let pitches := interpolated_range (1/2) 2 resolution
  let zipped := samples.flatMap (fun p =>
    pitches.map (fun q => ((p.1, q), p.2)))
  zipped.map (fun e => ((e.1.1, e.1.2), first_tick (adjust_pitch e.2 e.1.2)))

theorem first_tick_length (s : Sound ℚ) :
    (first_tick s).samples.length = samplesPerTick s.sample_rate := by
  unfold first_tick
  by_cases h : s.samples.length < samplesPerTick s.sample_rate
  · simp only [if_pos h, List.length_append, List.length_replicate]
    omega
  · simp only [if_neg h, List.length_take]
    omega

theorem first_tick_rate (s : Sound ℚ) :
    (first_tick s).sample_rate = s.sample_rate := by
  unfold first_tick
  by_cases h : s.samples.length < samplesPerTick s.sample_rate
  · simp only [if_pos h]
  · simp only [if_neg h]

theorem adjust_pitch_rate (s : Sound ℚ) (pitch : ℚ) :
    (adjust_pitch s pitch).sample_rate = s.sample_rate := by
  unfold adjust_pitch
  by_cases h : pitch = 1
  · simp only [if_pos h]
  · simp only [if_neg h]

/-- C4 (amended): `permute_with_pitch` discards nothing.  For `2 ≤ R`
(below which the source panics), the emitted key list is exactly the full
cross product of identifiers with `interpolated_range(0.5, 2.0, R)`, and
every emitted entry's sound — including those whose pitch-shift result is
shorter than one tick — has exactly one tick of samples, shorter sounds
having been zero-padded by `first_tick`. -/
theorem C4_permute_with_pitch_discards_nothing
    (samples : List (String × Sound ℚ)) (resolution : ℕ)
    (hR : 2 ≤ resolution) :
    ((permute_with_pitch samples resolution).map Prod.fst =
      samples.flatMap (fun p =>
        (interpolated_range (1/2) 2 resolution).map (fun q => (p.1, q)))) ∧
    ((permute_with_pitch samples resolution).length =
      samples.length * resolution) ∧
    (∀ e ∈ permute_with_pitch samples resolution,
      e.2.samples.length = samplesPerTick e.2.sample_rate) := by
  have hpl : (interpolated_range (1/2) 2 resolution).length = resolution := by
    unfold interpolated_range
    rw [List.length_map, List.length_range]
  have hkeys : (permute_with_pitch samples resolution).map Prod.fst =
      samples.flatMap (fun p =>
        (interpolated_range (1/2) 2 resolution).map (fun q => (p.1, q))) := by
    unfold permute_with_pitch
    rw [List.map_map]
    have : (Prod.fst ∘ fun e : (String × ℚ) × Sound ℚ =>
        ((e.1.1, e.1.2), first_tick (adjust_pitch e.2 e.1.2))) = Prod.fst := by
      funext e; rfl
    rw [this, List.map_flatMap]
    congr 1
    funext p
    rw [List.map_map]
    rfl
  refine ⟨hkeys, ?_, ?_⟩
  · have hlen := congrArg List.length hkeys
    rw [List.length_map] at hlen
    rw [hlen, List.length_flatMap]
    have hmap : (samples.map (List.length ∘ fun p : String × Sound ℚ =>
        (interpolated_range (1/2) 2 resolution).map (fun q => (p.1, q)))) =
        samples.map (fun _ => resolution) := by
      apply List.map_congr_left
      intro p _
      simp only [Function.comp_apply, List.length_map, hpl]
    rw [hmap, List.map_const', List.sum_replicate, smul_eq_mul]
  · intro e he
    unfold permute_with_pitch at he
    rw [List.mem_map] at he
    obtain ⟨x, _, hx⟩ := he
    subst hx
    show (first_tick (adjust_pitch x.2 x.1.2)).samples.length =
      samplesPerTick (first_tick (adjust_pitch x.2 x.1.2)).sample_rate
    rw [first_tick_length, first_tick_rate, adjust_pitch_rate]

/-- Witness for C4 at a concrete input with `R = 2`. -/
theorem C4_witness :
    (((permute_with_pitch [("a", (⟨[1], 40⟩ : Sound ℚ))] 2).map Prod.fst =
      [("a", (⟨[1], 40⟩ : Sound ℚ))].flatMap (fun p =>
        (interpolated_range (1/2) 2 2).map (fun q => (p.1, q)))) ∧
    ((permute_with_pitch [("a", (⟨[1], 40⟩ : Sound ℚ))] 2).length =
      [("a", (⟨[1], 40⟩ : Sound ℚ))].length * 2) ∧
    (∀ e ∈ permute_with_pitch [("a", (⟨[1], 40⟩ : Sound ℚ))] 2,
      e.2.samples.length = samplesPerTick e.2.sample_rate)) :=
  C4_permute_with_pitch_discards_nothing
    [("a", (⟨[1], 40⟩ : Sound ℚ))] 2 (by norm_num)

/-- C4 counterexample to the claim as stated: with the palette
`[("a", ⟨[1], 40⟩)]` and `R = 2`, one tick is `2` samples and the pitch
grid is `{0.5, 2}`; pitch `2` shifts the one-sample source to length
`0 < 2`, i.e. shorter than one tick, yet the key `("a", 2)` still appears
in the emitted key list (with a zero-padded column), so the entry is not
discarded. -/
theorem C4_counterexample :
    (adjust_pitch (⟨[1], 40⟩ : Sound ℚ) 2).samples.length < samplesPerTick 40 ∧
    ((permute_with_pitch [("a", (⟨[1], 40⟩ : Sound ℚ))] 2).map Prod.fst =
      [("a", 1/2), ("a", 2)]) := by
  have hfloor : Int.floor ((1 : ℚ) / 2) = 0 := by norm_num
  have hceil : Int.ceil (((40 : ℕ) : ℚ) * 50 / 1000) = 2 := by norm_num
  constructor
  · have h2 : samplesPerTick 40 = 2 := by
      unfold samplesPerTick
      rw [hceil]
      rfl
    have h0 : (adjust_pitch (⟨[1], 40⟩ : Sound ℚ) 2).samples.length = 0 := by
      unfold adjust_pitch
      rw [if_neg (by norm_num : ¬(2 : ℚ) = 1)]
      simp only [List.length_singleton, Nat.cast_one, List.length_map,
        List.length_range]
      rw [hfloor]
      rfl
    rw [h0, h2]
    norm_num
  · simp only [permute_with_pitch, interpolated_range, List.range_succ,
      List.range_zero, List.map_nil, List.nil_append, List.map_cons,
      List.map_append, List.flatMap_cons, List.flatMap_nil, List.append_nil]
    norm_num

/-- C5 (amended): `resample` fails by panicking — modelled as returning no
`Sound` at all (`none`) — exactly when the input length or the computed
output length `⌊len · target_rate / rate⌋` is zero. -/
theorem C5_resample_zero_length_panics (s : Sound ℚ) (new_rate : ℕ) :
    resample s new_rate = none ↔
      (s.samples.length = 0 ∨
        s.samples.length * new_rate / s.sample_rate = 0) := by
  simp only [resample]
  split_ifs with h1 h2
  · simpa using h1
  · simpa using h1
  · simpa using h1

/-- C5 counterexample to the claim as stated: on the empty `Sound` at rate
`48000`, `resample` yields `none` (the panic
`"resample failed, input or output len was 0"`), not an empty `Sound`
result. -/
theorem C5_counterexample :
    resample (⟨[], 48000⟩ : Sound ℚ) 48000 = none := by
  simp [resample]

/-! ## Spectral frontend (`audio.rs` `Sound::mel`)

The weighting loop is embedded over `ℝ` (the `f32` log cannot live in
`ℚ`); the external `rustfft` transform plans are abstracted as the fields
of `Processor`. -/

/-- `audio.rs` `FftBin`: a frequency and a complex coefficient. -/
structure FftBin where
  freq : ℝ
  complex : ℂ

/-- `audio.rs` `Processor`, abstracted over its cached transform plans:
`fft` and `ifft` wrap the external `rustfft` plans, whose numerics are
collaborator behavior outside the weighting claim. -/
structure Processor where
  fft : Sound ℝ → List FftBin
  ifft : List FftBin → List ℝ

/-- The `for bin in spectrum.iter_mut()` loop of `Sound::mel`:
`mel_freq = (2595.0 * (1.0 + freq/700.0).log10()) / 24000.0`,
`high_pass = freq / (freq.pow(2.0) + 100.0.pow(2.0)) + 0.4`,
`bin.complex *= (mel_freq * 2.0) * high_pass.min(1.0)`. -/
noncomputable def melWeight (spectrum : List FftBin) : List FftBin :=
  spectrum.map (fun bin =>
    let mel_freq := (2595 * Real.logb 10 (1 + bin.freq / 700)) / 24000
    let high_pass := bin.freq / (bin.freq ^ (2:ℝ) + (100:ℝ) ^ (2:ℝ)) + 0.4
    ⟨bin.freq, bin.complex * (((mel_freq * 2) * min high_pass 1 : ℝ) : ℂ)⟩)

/-- `audio.rs` `Sound::mel`: round-trip `fft → weight → ifft`; only
`samples` is reassigned, the sample rate field is untouched. -/
noncomputable def mel (processor : Processor) (s : Sound ℝ) : Sound ℝ :=
  let spectrum := processor.fft s
  let weighted := melWeight spectrum
  ⟨processor.ifft weighted, s.sample_rate⟩

/-- The spec's per-bin weight, from its words:
`w(f) = m(f) · min(h(f), 1)` with `m(f) = (2·2595·log₁₀(1 + f/700)) / 24000`
and `h(f) = f / (f² + 100²) + 0.4`. -/
noncomputable def wSpec (f : ℝ) : ℝ :=
  ((2 * 2595 * Real.logb 10 (1 + f / 700)) / 24000) *
    min (f / (f ^ 2 + 100 ^ 2) + 0.4) 1

/-- C8: `mel` multiplies the complex coefficient of each frequency bin of
frequency `f` by exactly `w(f) = m(f) · min(h(f), 1)` with
`m(f) = (2·2595·log₁₀(1 + f/700)) / 24000` and
`h(f) = f / (f² + 100²) + 0.4`, and the returned `Sound` retains the
input's sample rate. -/
theorem C8_mel_weights (processor : Processor) (s : Sound ℝ) :
    (mel processor s).sample_rate = s.sample_rate ∧
    (mel processor s).samples = processor.ifft (melWeight (processor.fft s)) ∧
    melWeight (processor.fft s) = (processor.fft s).map (fun bin =>
      ⟨bin.freq, bin.complex * ((wSpec bin.freq : ℝ) : ℂ)⟩) := by
  refine ⟨rfl, rfl, ?_⟩
  unfold melWeight
  apply List.map_congr_left
  intro bin _
  have hsc : ((2595 * Real.logb 10 (1 + bin.freq / 700)) / 24000 * 2) *
      min (bin.freq / (bin.freq ^ (2:ℝ) + (100:ℝ) ^ (2:ℝ)) + 0.4) 1 =
      wSpec bin.freq := by
    unfold wSpec
    rw [show (bin.freq ^ (2:ℝ)) = bin.freq ^ (2:ℕ) by
        rw [← Real.rpow_natCast bin.freq 2]; norm_num,
      show ((100:ℝ) ^ (2:ℝ)) = (100:ℝ) ^ (2:ℕ) by
        rw [← Real.rpow_natCast (100:ℝ) 2]; norm_num]
    ring
  simp only
  rw [hsc]

/-! ## Matrix post-processing and construction claims -/

theorem normalize_to_global_le_one {a b : ℕ} (A : Matrix (Fin a) (Fin b) ℚ)
    (i : Fin a) (j : Fin b) : normalize_to_global A i j ≤ 1 := by
  obtain ⟨M, hM⟩ := fmax_isSome (matList_ne_nil A i j)
  obtain ⟨_, hub⟩ := fmax_spec _ _ hM
  have hij := hub _ (mem_matList A i j)
  simp only [normalize_to_global, hM]
  by_cases h : 0 < M
  · rw [if_pos h]
    exact (div_le_one h).mpr hij
  · rw [if_neg h]
    exact le_trans hij (le_trans (not_lt.mp h) zero_le_one)

/-- C7: after `normalize_to_global` followed by `apply_epsilon(·, ε)`,
every entry is at most `1`, every entry strictly below `ε` is exactly `0`,
and every entry at least `ε` is left untouched by the thresholding. -/
theorem C7_postprocessing {a b : ℕ} (A : Matrix (Fin a) (Fin b) ℚ)
    (eps : ℚ) (i : Fin a) (j : Fin b) :
    apply_epsilon (normalize_to_global A) eps i j ≤ 1 ∧
    (normalize_to_global A i j < eps →
      apply_epsilon (normalize_to_global A) eps i j = 0) ∧
    (eps ≤ normalize_to_global A i j →
      apply_epsilon (normalize_to_global A) eps i j =
        normalize_to_global A i j) := by
  refine ⟨?_, ?_, ?_⟩
  · simp only [apply_epsilon, Matrix.of_apply]
    by_cases h : normalize_to_global A i j < eps
    · rw [if_pos h]
      exact zero_le_one
    · rw [if_neg h]
      exact normalize_to_global_le_one A i j
  · intro h
    simp only [apply_epsilon, Matrix.of_apply, if_pos h]
  · intro h
    simp only [apply_epsilon, Matrix.of_apply, if_neg (not_lt.mpr h)]

/-- Witness for C7 at `A = [[-1, 0]]`, `ε = 0`: the max is not positive so
normalization is a no-op; the entry `-1 < 0` is zeroed and the entry
`0 ≥ 0` is untouched. -/
theorem C7_witness :
    apply_epsilon (normalize_to_global !![(-1:ℚ), 0]) 0 0 0 ≤ 1 ∧
    apply_epsilon (normalize_to_global !![(-1:ℚ), 0]) 0 0 0 = 0 ∧
    apply_epsilon (normalize_to_global !![(-1:ℚ), 0]) 0 0 1 =
      normalize_to_global !![(-1:ℚ), 0] 0 1 :=
  ⟨(C7_postprocessing !![(-1:ℚ), 0] 0 0 0).1,
   (C7_postprocessing !![(-1:ℚ), 0] 0 0 0).2.1 (by decide),
   (C7_postprocessing !![(-1:ℚ), 0] 0 0 1).2.2 (by decide)⟩

/-- The spec's precondition on `matrix_from_rows` inputs: all rows have
the first row's length. -/
def allRowsEqualLength (matrix_vec : List (List ℚ)) : Prop :=
  ∀ row ∈ matrix_vec, row.length = (matrix_vec.headD []).length

instance (mv : List (List ℚ)) : Decidable (allRowsEqualLength mv) := by
  unfold allRowsEqualLength
  infer_instance

/-- C9 (amended): `matrix_from_vecs` succeeds with the row-major array of
shape `(|rows|, |rows[0]|)` exactly when the total element count equals
`|rows| · |rows[0]|`; equal-length rows always satisfy this, but a ragged
input fails only when its flattened length mismatches that product. -/
theorem C9_matrix_from_vecs (mv : List (List ℚ)) :
    (matrix_from_vecs mv =
        some ((mv.length, (mv.headD []).length), mv.flatten) ↔
      mv.flatten.length = mv.length * (mv.headD []).length) ∧
    (allRowsEqualLength mv →
      matrix_from_vecs mv =
        some ((mv.length, (mv.headD []).length), mv.flatten)) := by
  have hcols : (if 0 < mv.length then (mv.headD []).length else 0) =
      (mv.headD []).length := by
    cases mv <;> simp
  constructor
  · simp only [matrix_from_vecs]
    rw [hcols]
    by_cases h : mv.flatten.length = mv.length * (mv.headD []).length
    · rw [if_pos h]
      exact ⟨fun _ => h, fun _ => rfl⟩
    · rw [if_neg h]
      constructor
      · intro hc
        exact Option.noConfusion hc
      · intro hc
        exact absurd hc h
  · intro hall
    have hlen : mv.flatten.length = mv.length * (mv.headD []).length := by
      rw [List.length_flatten]
      have : mv.map List.length = mv.map (fun _ => (mv.headD []).length) :=
        List.map_congr_left (fun row hrow => hall row hrow)
      rw [this, List.map_const', List.sum_replicate, smul_eq_mul]
    simp only [matrix_from_vecs]
    rw [hcols, if_pos hlen]

/-- Witness for C9 on the equal-length input `[[1, 2], [3, 4]]`. -/
theorem C9_witness :
    matrix_from_vecs [[(1:ℚ), 2], [3, 4]] =
      some ((([[(1:ℚ), 2], [3, 4]] : List (List ℚ)).length,
        (([[(1:ℚ), 2], [3, 4]] : List (List ℚ)).headD []).length),
        ([[(1:ℚ), 2], [3, 4]] : List (List ℚ)).flatten) :=
  (C9_matrix_from_vecs [[(1:ℚ), 2], [3, 4]]).2 (by decide)

/-- C9 counterexample to the claim as stated: the ragged input
`[[1], [2, 3], []]` (row lengths `1, 2, 0`) flattens to three elements,
which matches the computed shape `(3, 1)`, so `matrix_from_vecs`
succeeds — with misaligned rows — instead of failing. -/
theorem C9_counterexample :
    matrix_from_vecs [[(1:ℚ)], [2, 3], []] = some ((3, 1), [1, 2, 3]) ∧
    ¬ allRowsEqualLength [[(1:ℚ)], [2, 3], []] := by
  constructor
  · decide
  · decide

/-- C10: `normalize_to_minus_plus` zeroes every element of a constant
matrix (`max − min = 0`), including non-zero constants; when `min < max`
it rescales affinely, sending each entry `x` to
`2(x − min)/(max − min) − 1`, the minimum to `−1` and the maximum to
`+1`. -/
theorem C10_normalize_to_minus_plus {a b : ℕ} (A : Matrix (Fin a) (Fin b) ℚ) :
    (∀ c : ℚ, (∀ i j, A i j = c) →
      ∀ i j, normalize_to_minus_plus A i j = 0) ∧
    (∀ mn mx : ℚ, fmin (matList A) = some mn → fmax (matList A) = some mx →
      mn < mx → ∀ i j,
        normalize_to_minus_plus A i j = 2 * (A i j - mn) / (mx - mn) - 1 ∧
        (A i j = mn → normalize_to_minus_plus A i j = -1) ∧
        (A i j = mx → normalize_to_minus_plus A i j = 1)) := by
  constructor
  · intro c hc i j
    obtain ⟨mn, hmn⟩ := fmin_isSome (matList_ne_nil A i j)
    obtain ⟨mx, hmx⟩ := fmax_isSome (matList_ne_nil A i j)
    have hmnc : mn = c := by
      obtain ⟨hmem, _⟩ := fmin_spec _ _ hmn
      obtain ⟨i', j', hij⟩ := of_mem_matList A mn hmem
      rw [← hij, hc i' j']
    have hmxc : mx = c := by
      obtain ⟨hmem, _⟩ := fmax_spec _ _ hmx
      obtain ⟨i', j', hij⟩ := of_mem_matList A mx hmem
      rw [← hij, hc i' j']
    simp only [normalize_to_minus_plus, hmn, hmx]
    rw [if_neg (by rw [hmnc, hmxc, sub_self]; exact lt_irrefl 0)]
    rfl
  · intro mn mx hmn hmx hlt i j
    have hne : mx - mn ≠ 0 := sub_ne_zero.mpr (ne_of_gt hlt)
    have hform : normalize_to_minus_plus A i j =
        2 * (A i j - mn) / (mx - mn) - 1 := by
      simp only [normalize_to_minus_plus, hmn, hmx]
      rw [if_pos (by linarith : (0:ℚ) < mx - mn)]
      rfl
    refine ⟨hform, ?_, ?_⟩
    · intro h
      rw [hform, h, sub_self, mul_zero, zero_div, zero_sub]
    · intro h
      rw [hform, h, mul_div_assoc, div_self hne]
      norm_num

/-- Witness for C10: the constant matrix `[[3, 3]]` is zeroed; on
`[[0, 1]]` the minimum maps to `−1` and the maximum to `+1`. -/
theorem C10_witness :
    normalize_to_minus_plus !![(3:ℚ), 3] 0 0 = 0 ∧
    normalize_to_minus_plus !![(0:ℚ), 1] 0 0 = -1 ∧
    normalize_to_minus_plus !![(0:ℚ), 1] 0 1 = 1 :=
  ⟨(C10_normalize_to_minus_plus !![(3:ℚ), 3]).1 3 (by decide) 0 0,
   ((C10_normalize_to_minus_plus !![(0:ℚ), 1]).2 0 1 (by decide) (by decide)
     (by decide) 0 0).2.1 (by decide),
   ((C10_normalize_to_minus_plus !![(0:ℚ), 1]).2 0 1 (by decide) (by decide)
     (by decide) 0 1).2.2 (by decide)⟩

/-! ## Scheduler (`main.rs`, schedule emission loop)

An item of the per-tick list is `(index, (amplitude, (identifier, pitch)))`
as produced by `amplitudes.iter().zip(&sound_ids).enumerate()`. -/

/-- One insertion step of the stable descending sort modelling `main.rs`'s
`sort_by(|a, b| b.1.0.partial_cmp(a.1.0).unwrap())`: the incoming element
passes over strictly larger amplitudes and lands before any element of
equal or smaller amplitude, so earlier positions win amplitude ties.
Rust's `sort_by` is stable, and a stable sort realizes its observable
behavior. -/
def insertDesc (x : ℕ × ℚ × (String × ℚ)) :
    List (ℕ × ℚ × (String × ℚ)) → List (ℕ × ℚ × (String × ℚ))
  | [] => [x]
  | y :: ys => if x.2.1 < y.2.1 then y :: insertDesc x ys else x :: y :: ys

/-- The stable descending-by-amplitude sort of the enumerated amplitude
list. -/
def sortDesc : List (ℕ × ℚ × (String × ℚ)) → List (ℕ × ℚ × (String × ℚ))
  | [] => []
  | x :: xs => insertDesc x (sortDesc xs)

/-- Sorted order of the per-tick list: strictly larger amplitude first,
ties ordered by original (enumeration) index. -/
def schedR (p q : ℕ × ℚ × (String × ℚ)) : Prop :=
  q.2.1 < p.2.1 ∨ (p.2.1 = q.2.1 ∧ p.1 < q.1)

theorem mem_insertDesc (x z : ℕ × ℚ × (String × ℚ))
    (l : List (ℕ × ℚ × (String × ℚ))) :
    z ∈ insertDesc x l ↔ z = x ∨ z ∈ l := by
  induction l with
  | nil => simp [insertDesc]
  | cons y ys ih =>
      by_cases h : x.2.1 < y.2.1
      · simp only [insertDesc, if_pos h, List.mem_cons, ih]
        tauto
      · simp only [insertDesc, if_neg h, List.mem_cons]

theorem insertDesc_pairwise (x : ℕ × ℚ × (String × ℚ))
    (l : List (ℕ × ℚ × (String × ℚ)))
    (hl : List.Pairwise schedR l)
    (hidx : ∀ y ∈ l, x.1 < y.1) :
    List.Pairwise schedR (insertDesc x l) := by
  induction l with
  | nil => exact List.pairwise_singleton _ _
  | cons y ys ih =>
      rw [List.pairwise_cons] at hl
      obtain ⟨hy, hys⟩ := hl
      by_cases h : x.2.1 < y.2.1
      · simp only [insertDesc, if_pos h]
        rw [List.pairwise_cons]
        constructor
        · intro z hz
          rcases (mem_insertDesc x z ys).mp hz with hzx | hzy
          · subst hzx
            exact Or.inl h
          · exact hy z hzy
        · exact ih hys (fun w hw => hidx w (List.mem_cons_of_mem _ hw))
      · simp only [insertDesc, if_neg h]
        rw [List.pairwise_cons]
        constructor
        · intro z hz
          rcases List.mem_cons.mp hz with hzy | hzys
          · subst hzy
            rcases lt_or_eq_of_le (not_lt.mp h) with hlt | heq
            · exact Or.inl hlt
            · exact Or.inr ⟨heq.symm, hidx z (List.mem_cons_self _ _)⟩
          · rcases hy z hzys with hlt1 | ⟨heq1, _⟩
            · rcases lt_or_eq_of_le (not_lt.mp h) with hlt2 | heq2
              · exact Or.inl (lt_trans hlt1 hlt2)
              · exact Or.inl (by linarith)
            · rcases lt_or_eq_of_le (not_lt.mp h) with hlt2 | heq2
              · exact Or.inl (by linarith)
              · exact Or.inr ⟨by linarith,
                  hidx z (List.mem_cons_of_mem _ hzys)⟩
        · rw [List.pairwise_cons]
          exact ⟨hy, hys⟩

theorem insertDesc_perm (x : ℕ × ℚ × (String × ℚ))
    (l : List (ℕ × ℚ × (String × ℚ))) :
    List.Perm (insertDesc x l) (x :: l) := by
  induction l with
  | nil => exact List.Perm.refl _
  | cons y ys ih =>
      by_cases h : x.2.1 < y.2.1
      · simp only [insertDesc, if_pos h]
        exact List.Perm.trans (List.Perm.cons y ih) (List.Perm.swap x y ys)
      · simp only [insertDesc, if_neg h]
        exact List.Perm.refl _

theorem sortDesc_perm (l : List (ℕ × ℚ × (String × ℚ))) :
    List.Perm (sortDesc l) l := by
  induction l with
  | nil => exact List.Perm.refl _
  | cons x xs ih =>
      exact List.Perm.trans (insertDesc_perm x (sortDesc xs))
        (List.Perm.cons x ih)

theorem mem_sortDesc (z : ℕ × ℚ × (String × ℚ))
    (l : List (ℕ × ℚ × (String × ℚ))) : z ∈ sortDesc l ↔ z ∈ l :=
  (sortDesc_perm l).mem_iff

theorem sortDesc_pairwise (l : List (ℕ × ℚ × (String × ℚ)))
    (hl : List.Pairwise (fun p q : ℕ × ℚ × (String × ℚ) => p.1 < q.1) l) :
    List.Pairwise schedR (sortDesc l) := by
  induction l with
  | nil => exact List.Pairwise.nil
  | cons x xs ih =>
      rw [List.pairwise_cons] at hl
      obtain ⟨hx, hxs⟩ := hl
      exact insertDesc_pairwise x (sortDesc xs) (ih hxs)
        (fun y hy => hx y ((mem_sortDesc y xs).mp hy))

theorem le_fst_of_mem_enumFrom {α : Type} (l : List α) (k : ℕ)
    (p : ℕ × α) (hp : p ∈ l.enumFrom k) : k ≤ p.1 := by
  induction l generalizing k with
  | nil => cases hp
  | cons x xs ih =>
      rcases List.mem_cons.mp hp with h | h
      · subst h
        exact le_refl k
      · exact le_trans (Nat.le_succ k) (ih (k + 1) h)

theorem enumFrom_pairwise {α : Type} (l : List α) (k : ℕ) :
    List.Pairwise (fun p q : ℕ × α => p.1 < q.1) (l.enumFrom k) := by
  induction l generalizing k with
  | nil => exact List.Pairwise.nil
  | cons x xs ih =>
      rw [List.enumFrom, List.pairwise_cons]
      refine ⟨?_, ih (k + 1)⟩
      intro q hq
      exact lt_of_lt_of_le (Nat.lt_succ_self k)
        (le_fst_of_mem_enumFrom xs (k + 1) q hq)

/-- The body of the per-tick output loop of `main.rs`: zip the column's
amplitudes with the palette keys, enumerate, sort descending by amplitude
with a stable sort, then take the slice `&amplitudes[0..64]`, which panics
(modelled `none`) when fewer than `64` elements remain. -/
def scheduleTick (keys : List (String × ℚ)) (amps : List ℚ) :
    Option (List (ℕ × ℚ × (String × ℚ))) :=
  let amplitudes := (amps.zip keys).enum
  let sorted := sortDesc amplitudes
  if 64 ≤ sorted.length then some (sorted.take 64) else none

/-- The schedule emission loop of `main.rs`
(`approximation.axis_iter(Axis(1)).enumerate()`): one record per column of
`H` in ascending tick order, the record for tick `k` carrying that
column's top-64 slice. -/
def schedule {r n : ℕ} (H : Matrix (Fin r) (Fin n) ℚ)
    (keys : List (String × ℚ)) :
    Option (List (ℕ × List (ℕ × ℚ × (String × ℚ)))) :=
  (List.finRange n).mapM (fun k =>
    (scheduleTick keys ((List.finRange r).map (fun i => H i k))).map
      (fun entries => (k.val, entries)))

theorem mapM_eq_some {α β : Type} (f : α → Option β) (g : α → β)
    (l : List α) (h : ∀ x ∈ l, f x = some (g x)) :
    l.mapM f = some (l.map g) := by
  induction l with
  | nil => rfl
  | cons x xs ih =>
      rw [List.mapM_cons, h x (List.mem_cons_self _ _),
        ih (fun y hy => h y (List.mem_cons_of_mem _ hy))]
      rfl

/-- C6 (amended): for a palette key list of length `r` with `r ≥ 64`
(below which the slice `[0..64]` panics), the emitted schedule has one
record per tick in ascending tick order, and each record lists exactly 64
entries in non-increasing amplitude order, amplitude ties broken by
palette insertion (enumeration) order. -/
theorem C6_schedule_spec {r n : ℕ} (H : Matrix (Fin r) (Fin n) ℚ)
    (keys : List (String × ℚ)) (hkeys : keys.length = r) (h64 : 64 ≤ r) :
    ∃ recs : List (ℕ × List (ℕ × ℚ × (String × ℚ))),
      schedule H keys = some recs ∧
      recs.length = n ∧
      recs.map Prod.fst = (List.finRange n).map Fin.val ∧
      ∀ record ∈ recs, record.2.length = 64 ∧
        List.Pairwise
          (fun p q : ℕ × ℚ × (String × ℚ) => q.2.1 ≤ p.2.1) record.2 ∧
        List.Pairwise (fun p q : ℕ × ℚ × (String × ℚ) =>
          p.2.1 = q.2.1 → p.1 < q.1) record.2 := by
  have hsortlen : ∀ k : Fin n,
      (sortDesc ((((List.finRange r).map (fun i => H i k)).zip keys).enum)).length
        = r := by
    intro k
    rw [(sortDesc_perm _).length_eq, List.enum_length, List.length_zip,
      List.length_map, List.length_finRange, hkeys, min_self]
  have htick : ∀ k : Fin n,
      scheduleTick keys ((List.finRange r).map (fun i => H i k)) =
        some ((sortDesc
          ((((List.finRange r).map (fun i => H i k)).zip keys).enum)).take 64) := by
    intro k
    simp only [scheduleTick]
    rw [if_pos (by rw [hsortlen k]; exact h64)]
  refine ⟨(List.finRange n).map (fun k =>
      (k.val, (sortDesc
        ((((List.finRange r).map (fun i => H i k)).zip keys).enum)).take 64)),
    ?_, ?_, ?_, ?_⟩
  · unfold schedule
    apply mapM_eq_some
    intro k _
    rw [htick k]
    rfl
  · rw [List.length_map, List.length_finRange]
  · rw [List.map_map]
    rfl
  · intro record hrec
    rw [List.mem_map] at hrec
    obtain ⟨k, _, hk⟩ := hrec
    subst hk
    have hpair : List.Pairwise schedR
        (sortDesc ((((List.finRange r).map (fun i => H i k)).zip keys).enum)) :=
      sortDesc_pairwise _
        (enumFrom_pairwise (((List.finRange r).map (fun i => H i k)).zip keys) 0)
    have hpairtake : List.Pairwise schedR
        ((sortDesc
          ((((List.finRange r).map (fun i => H i k)).zip keys).enum)).take 64) :=
      List.Pairwise.sublist (List.take_sublist 64 _) hpair
    refine ⟨?_, ?_, ?_⟩
    · show ((sortDesc
        ((((List.finRange r).map (fun i => H i k)).zip keys).enum)).take 64).length = 64
      rw [List.length_take, hsortlen k]
      exact min_eq_left h64
    · refine hpairtake.imp ?_
      intro p q hpq
      rcases hpq with hlt | ⟨heq, _⟩
      · exact le_of_lt hlt
      · exact le_of_eq heq.symm
    · refine hpairtake.imp ?_
      intro p q hpq heq
      rcases hpq with hlt | ⟨_, hidx⟩
      · exact absurd heq (ne_of_gt hlt)
      · exact hidx

/-- Witness for C6: a 64-entry palette of equal keys and a single
all-zero column. -/
theorem C6_witness :
    ∃ recs : List (ℕ × List (ℕ × ℚ × (String × ℚ))),
      schedule (Matrix.of fun (_ : Fin 64) (_ : Fin 1) => (0:ℚ))
        (List.replicate 64 ("a", (1:ℚ))) = some recs ∧
      recs.length = 1 ∧
      recs.map Prod.fst = (List.finRange 1).map Fin.val ∧
      ∀ record ∈ recs, record.2.length = 64 ∧
        List.Pairwise
          (fun p q : ℕ × ℚ × (String × ℚ) => q.2.1 ≤ p.2.1) record.2 ∧
        List.Pairwise (fun p q : ℕ × ℚ × (String × ℚ) =>
          p.2.1 = q.2.1 → p.1 < q.1) record.2 :=
  C6_schedule_spec (Matrix.of fun (_ : Fin 64) (_ : Fin 1) => (0:ℚ))
    (List.replicate 64 ("a", (1:ℚ))) (by decide) (by decide)

/-- C6 counterexample to the claim as stated ("up to K = 64 entries"):
with a single palette entry (`r = 1 < 64`) the slice `&amplitudes[0..64]`
panics, modelled `none`: no record at all is emitted for tick 0, rather
than a record with one entry. -/
theorem C6_counterexample :
    schedule (Matrix.of fun (_ : Fin 1) (_ : Fin 1) => (1:ℚ)) [("a", 1)] =
      none := by
  rfl

end MinecraftPlayer
